import Mathlib

/-!
Verification of the GOPS (Game of Pure Strategy) solver.

The development shallowly embeds the repository's Python sources:

- `Gops.*` embeds `game_of_pure_strategy/gops.py`, the operative solver:
  the frozen-set `GameState` (player / opponent / deck collections as
  `Finset`), the canonical state enumeration `of_size`, `after_round`,
  `opposite`, `sign`, the payoff-matrix construction and the
  level-by-level orchestrator `get_optimal_game_strategy`.  Python
  `frozenset`s become `Finset ℕ`; `float` values become `ℚ` (all values
  produced by the program are rational); Python `dict`s used as value
  caches become association lists; set iteration order (unspecified in
  Python) is modelled by the sorted order of the underlying `Finset`.
  Code that can raise (`dict[...]` lookups, division by `len`,
  `next(...)` on an exhausted iterator) returns `Option`/`Except`.
  The external LP solver (python-mip / CBC) is abstracted as a `Solver`
  parameter; the linear program it is asked to solve is embedded
  separately (`Gops.codeLPFeasible` and friends).

- `PM.*` embeds `game_of_pure_strategy/payoff_matrix.py`'s `GameState`
  (deck as an ordered tuple, i.e. a `List`) and its `ValueCache`.
-/

namespace Gops

/-- Embeds gops.py `card_range`: `range(1, max_card + 1)`, the list
`[1, 2, ..., maxCard]`. -/
def cardRange (maxCard : ℕ) : List ℕ :=
  (List.range maxCard).map (· + 1)

/-- Embeds `itertools.combinations(ys, k)`: all subsequences of `ys` of
length `k`, in the order itertools emits them. -/
def combos : ℕ → List ℕ → List (List ℕ)
  | 0, _ => [[]]
  | _ + 1, [] => []
  | k + 1, x :: xs => ((combos k xs).map (fun l => x :: l)) ++ combos (k + 1) xs

/-- Embeds `itertools.combinations_with_replacement(xs, 2)`: all pairs
`(xs[i], xs[j])` with `i ≤ j`, in the order itertools emits them. -/
def cwr2 {α : Type} : List α → List (α × α)
  | [] => []
  | x :: xs => (x, x) :: (xs.map (fun y => (x, y)) ++ cwr2 xs)

/-- Embeds `itertools.product(as, bs)`. -/
def listProd {α β : Type} (as : List α) (bs : List β) : List (α × β) :=
  as.flatMap (fun a => bs.map (fun b => (a, b)))

/-- Embeds gops.py `GameState`: three frozen sets of cards. -/
structure GameState where
  player_cards : Finset ℕ
  opponent_cards : Finset ℕ
  deck_cards : Finset ℕ
deriving DecidableEq

/-- Embeds gops.py `GameState.of_size`: states whose (player, opponent)
hand pair ranges over `combinations_with_replacement(combinations(...), 2)`
and whose deck ranges over `combinations(...)`, each tuple frozen into a
set. -/
def GameState.ofSize (size maxCard : ℕ) : List GameState :=
  (listProd (cwr2 (combos size (cardRange maxCard))) (combos size (cardRange maxCard))).map
    (fun pd => GameState.mk pd.1.1.toFinset pd.1.2.toFinset pd.2.toFinset)

/-- Embeds gops.py `GameState.empty`. -/
def GameState.empty : GameState :=
  GameState.mk ∅ ∅ ∅

/-- Embeds gops.py `GameState.after_round`: set difference of each
collection with the corresponding played card. -/
def GameState.afterRound (s : GameState) (revealed pm om : ℕ) : GameState :=
  GameState.mk (s.player_cards \ {pm}) (s.opponent_cards \ {om}) (s.deck_cards \ {revealed})

/-- Embeds gops.py `GameState.opposite`: player and opponent swapped,
deck unchanged. -/
def GameState.opposite (s : GameState) : GameState :=
  GameState.mk s.opponent_cards s.player_cards s.deck_cards

/-- Embeds gops.py `Strategy`: probability per card plus the game value. -/
structure Strategy where
  card_probabilities : List (ℕ × ℚ)
  expected_value : ℚ
deriving DecidableEq

/-- Embeds gops.py `sign`: `1.0` for positive, `0.0` for zero, `-1.0`
for negative. -/
def sign (i : ℤ) : ℚ :=
  if 0 < i then 1 else if i = 0 then 0 else -1

/-- Iteration order of a Python frozenset is unspecified; the embedding
fixes the ascending order, realized as a filter of an initial segment so
that it evaluates inside the kernel. -/
def finList (s : Finset ℕ) : List ℕ :=
  (List.range (s.sup id + 1)).filter (fun x => x ∈ s)

/-- Lookup in an association list, modelling `dict.get` on a dict whose
insertions are the list's entries (first match wins; Python dict keys
are unique, and every cache built below has pairwise-distinct keys). -/
def findVal : List (GameState × ℚ) → GameState → Option ℚ
  | [], _ => none
  | (k, v) :: t, s => if k = s then some v else findVal t s

/-- Embeds gops.py lines 198-200: `cached_game_values.get(continuation)`
and, on a miss, the negation of `cached_game_values[continuation.opposite()]`
(a `KeyError` there becomes `none`). -/
def lookupContinuation (cache : List (GameState × ℚ)) (s : GameState) : Option ℚ :=
  match findVal cache s with
  | some v => some v
  | none => (findVal cache s.opposite).map (fun v => -v)

/-- Embeds gops.py lines 190-194: `0.0` on equal moves, otherwise
`top_card * sign(player_move - opponent_move)`. -/
def moveValue (top pm om : ℕ) : ℚ :=
  if pm = om then 0 else (top : ℚ) * sign ((pm : ℤ) - (om : ℤ))

/-- Generic effectful map used to embed Python loops whose body can
raise: `none` as soon as one element fails. -/
def mapOptionList {α β : Type} (f : α → Option β) : List α → Option (List β)
  | [] => some []
  | a :: l => (f a).bind (fun b => (mapOptionList f l).map (fun bs => b :: bs))

/-- Embeds the payoff-matrix loop of gops.py lines 188-204: one entry per
(player move, opponent move) in the product of the two hands, each entry
the move value plus the continuation value from the cache. -/
def buildPayoffMatrix (cache : List (GameState × ℚ)) (s : GameState) (top : ℕ) :
    Option (List ((ℕ × ℕ) × ℚ)) :=
  mapOptionList
    (fun mo => (lookupContinuation cache (s.afterRound top mo.1 mo.2)).map
      (fun c => (mo, moveValue top mo.1 mo.2 + c)))
    (listProd (finList s.player_cards) (finList s.opponent_cards))

/-- The external LP solver, abstracted: player hand, opponent hand and
payoff matrix in, a `Strategy` out. -/
def Solver : Type :=
  List ℕ → List ℕ → List ((ℕ × ℕ) × ℚ) → Strategy

/-- Embeds gops.py `get_strategies_for_possible_top_cards`: empty dict on
an empty deck; the single forced move on a one-card deck (where
`next(iter(...))` on a frozenset is modelled as the head of its sorted
list, total with default `0` on the empty set that Python would raise on);
otherwise one LP solve per possible top card. -/
def getStrategiesForPossibleTopCards (solver : Solver) (s : GameState)
    (cache : List (GameState × ℚ)) : Option (List (ℕ × Strategy)) :=
  if s.deck_cards.card = 0 then some []
  else if s.deck_cards.card = 1 then
    let pm := (finList s.player_cards).headD 0
    let om := (finList s.opponent_cards).headD 0
    let top := (finList s.deck_cards).headD 0
    some [(top, Strategy.mk [(pm, 1)] ((top : ℚ) * sign ((pm : ℤ) - (om : ℤ))))]
  else
    mapOptionList
      (fun top => (buildPayoffMatrix cache s top).map
        (fun m => (top, solver (finList s.player_cards) (finList s.opponent_cards) m)))
      (finList s.deck_cards)

/-- Embeds the per-level loop of gops.py lines 235-244: for every
enumerated state, solve all top cards and store the mean of the expected
values (`sum(...) / len(strategies)`; a zero-length dict would raise
`ZeroDivisionError`, modelled as `none`). -/
def levelValues (solver : Solver) (cache : List (GameState × ℚ))
    (states : List GameState) : Option (List (GameState × ℚ)) :=
  mapOptionList
    (fun s => (getStrategiesForPossibleTopCards solver s cache).bind
      (fun strats =>
        if strats.length = 0 then none
        else some (s, (strats.map (fun p => p.2.expected_value)).sum / (strats.length : ℚ))))
    states

/-- Cache state after the orchestrator has processed levels `1..k` of a
game of size `gameSize` (gops.py lines 229-248); level `0` is the seeded
`{GameState.empty(): 0.0}`. -/
def runLevels (solver : Solver) (gameSize : ℕ) : ℕ → Option (List (GameState × ℚ))
  | 0 => some [(GameState.empty, 0)]
  | k + 1 => (runLevels solver gameSize k).bind
      (fun cache => levelValues solver cache (GameState.ofSize (k + 1) gameSize))

/-- Embeds gops.py `get_optimal_game_strategy`: run levels `1..N-1`, then
solve the unique full-size state (`next(...)` on an empty enumeration
would raise `StopIteration`, modelled as `none`). -/
def getOptimalGameStrategy (solver : Solver) (gameSize : ℕ) :
    Option (List (ℕ × Strategy)) :=
  (runLevels solver gameSize (gameSize - 1)).bind
    (fun cache =>
      match GameState.ofSize gameSize gameSize with
      | [] => none
      | s :: _ => getStrategiesForPossibleTopCards solver s cache)

/-- A trivial concrete solver, used to instantiate the abstract `Solver`
parameter on concrete inputs. -/
def solverZero : Solver :=
  fun _ _ _ => Strategy.mk [] 0

/-- States the claims quantify over: exactly `size` cards in each
collection, all drawn from `[1, maxCard]`. -/
def validState (s : GameState) (size maxCard : ℕ) : Prop :=
  s.player_cards.card = size ∧ s.opponent_cards.card = size ∧ s.deck_cards.card = size ∧
    (∀ x ∈ s.player_cards, 1 ≤ x ∧ x ≤ maxCard) ∧
    (∀ x ∈ s.opponent_cards, 1 ≤ x ∧ x ≤ maxCard) ∧
    (∀ x ∈ s.deck_cards, 1 ≤ x ∧ x ≤ maxCard)

instance (s : GameState) (size maxCard : ℕ) : Decidable (validState s size maxCard) := by
  unfold validState
  infer_instance

/-- One half of the symmetry reduction: among a state and its distinct
opposite, the enumeration yields exactly one, exactly once. -/
def enumYieldsExactlyOne (n maxCard : ℕ) (s : GameState) : Prop :=
  (s ∈ GameState.ofSize n maxCard ∨ s.opposite ∈ GameState.ofSize n maxCard) ∧
    (s.opposite ≠ s →
      ¬(s ∈ GameState.ofSize n maxCard ∧ s.opposite ∈ GameState.ofSize n maxCard)) ∧
    (GameState.ofSize n maxCard).count s ≤ 1

/-- The other half of C10: with a level cache keyed exactly by the level's
enumeration, every continuation lookup made while solving a state of the
next level succeeds, so the `KeyError` branch is unreachable. -/
def nextLevelLookupsSucceed (n maxCard : ℕ) : Prop :=
  ∀ (cache : List (GameState × ℚ)) (t : GameState) (top pm om : ℕ),
    cache.map Prod.fst = GameState.ofSize n maxCard →
    validState t (n + 1) maxCard →
    top ∈ t.deck_cards → pm ∈ t.player_cards → om ∈ t.opponent_cards →
    (lookupContinuation cache (t.afterRound top pm om)).isSome

/-- Embeds the invariant asserted by payoff_matrix.py
`GameState.__post_init__`: all three collections have the same size. -/
def sameNumberOfCards (s : GameState) : Prop :=
  s.player_cards.card = s.opponent_cards.card ∧ s.opponent_cards.card = s.deck_cards.card

instance (s : GameState) : Decidable (sameNumberOfCards s) := by
  unfold sameNumberOfCards
  infer_instance

/-- Embeds the row construction of gops.py lines 132-134:
`[payoff_matrix[(player_card, opponent_card)] for player_card in player_cards]`. -/
def transposedRow (payoff : ℕ → ℕ → ℚ) (playerCards : List ℕ) (oc : ℕ) : List ℚ :=
  playerCards.map (fun pc => payoff pc oc)

/-- Feasibility for the linear program exactly as gops.py
`optimize_player_strategy` builds it: one `xsum(row_i * x_i) - v >= 0`
constraint per opponent card (lines 131-139), `xsum(x) == 1`
(line 141), and the solver's default lower bound `0` on every `x`
variable; `v` is declared with `lb=-mip.INF`, so it is unconstrained. -/
def codeLPFeasible (pcs ocs : List ℕ) (payoff : ℕ → ℕ → ℚ) (xs : List ℚ) (v : ℚ) : Prop :=
  (∀ oc ∈ ocs, 0 ≤ (List.zipWith (· * ·) (transposedRow payoff pcs oc) xs).sum - v) ∧
    xs.sum = 1 ∧ (∀ xi ∈ xs, 0 ≤ xi)

/-- Modelled from the spec's words for the equilibrium LP: maximize `v`
subject to, for every opponent card `j`, `Σ_i payoff[i,j] * x_i − v ≥ 0`,
with `Σ_i x_i = 1`, `x_i ≥ 0`, and `v` free (feasibility part). -/
def specLPFeasible (pcs ocs : List ℕ) (payoff : ℕ → ℕ → ℚ) (xs : List ℚ) (v : ℚ) : Prop :=
  (∀ oc ∈ ocs,
      v ≤ ∑ i ∈ Finset.range pcs.length, payoff (pcs.getD i 0) oc * xs.getD i 0) ∧
    (∑ i ∈ Finset.range pcs.length, xs.getD i 0) = 1 ∧
    (∀ i ∈ Finset.range pcs.length, 0 ≤ xs.getD i 0)

/-- Optimality for the LP as the code builds it: feasible, and the
objective `v` (line 142: `maximize(v)`) is maximal among feasible points. -/
def codeLPOptimal (pcs ocs : List ℕ) (payoff : ℕ → ℕ → ℚ) (xs : List ℚ) (v : ℚ) : Prop :=
  codeLPFeasible pcs ocs payoff xs v ∧
    ∀ xs' v', xs'.length = pcs.length → codeLPFeasible pcs ocs payoff xs' v' → v' ≤ v

/-- Modelled from the spec's words: an optimal solution of the spec's LP. -/
def specLPOptimal (pcs ocs : List ℕ) (payoff : ℕ → ℕ → ℚ) (xs : List ℚ) (v : ℚ) : Prop :=
  specLPFeasible pcs ocs payoff xs v ∧
    ∀ xs' v', xs'.length = pcs.length → specLPFeasible pcs ocs payoff xs' v' → v' ≤ v

/-- Embeds the `Strategy` construction of gops.py lines 152-157 from the
solved variable values: `card_probabilities = {card: x_card}` pairing each
player card with its optimal variable value, `expected_value = v`. -/
def optimizePlayerStrategy (pcs : List ℕ) (xs : List ℚ) (v : ℚ) : Strategy :=
  Strategy.mk (pcs.zip xs) v

end Gops

namespace PM

/-- Embeds payoff_matrix.py `GameState`: frozen-set hands, tuple deck. -/
structure GameState where
  player_cards : Finset ℕ
  opponent_cards : Finset ℕ
  deck_cards : List ℕ
deriving DecidableEq

/-- Embeds payoff_matrix.py `GameState.opposite`. -/
def GameState.opposite (s : GameState) : GameState :=
  GameState.mk s.opponent_cards s.player_cards s.deck_cards

/-- The error raised by payoff_matrix.py `ValueCache.__getitem__` when
neither the state nor its opposite is stored. -/
inductive CacheError where
  | cacheMiss
deriving DecidableEq

/-- Lookup in the underlying `self.values` dict of a `ValueCache`. -/
def findVal : List (GameState × ℚ) → GameState → Option ℚ
  | [], _ => none
  | (k, v) :: t, s => if k = s then some v else findVal t s

/-- Embeds payoff_matrix.py `ValueCache.__getitem__`: `0` for mirrored
hands, else the stored value, else the negated stored value of the
opposite state, else a `KeyError`. -/
def cacheGetItem (values : List (GameState × ℚ)) (s : GameState) : Except CacheError ℚ :=
  if s.player_cards = s.opponent_cards then Except.ok 0
  else
    match findVal values s with
    | some v => Except.ok v
    | none =>
      match findVal values s.opposite with
      | some ov => Except.ok (-ov)
      | none => Except.error CacheError.cacheMiss

end PM

namespace Gops

/-! Helper lemmas about the canonical set enumeration and the generic
list combinators. -/

theorem mem_finList {s : Finset ℕ} {x : ℕ} : x ∈ finList s ↔ x ∈ s := by
  unfold finList
  simp only [List.mem_filter, List.mem_range, decide_eq_true_eq]
  constructor
  · exact fun h => h.2
  · intro h
    exact ⟨Nat.lt_succ_of_le (Finset.le_sup h : id x ≤ s.sup id), h⟩

theorem finList_nodup (s : Finset ℕ) : (finList s).Nodup :=
  (List.nodup_range _).filter _

theorem finList_toFinset (s : Finset ℕ) : (finList s).toFinset = s := by
  ext x
  rw [List.mem_toFinset, mem_finList]

theorem finList_length (s : Finset ℕ) : (finList s).length = s.card := by
  rw [← List.toFinset_card_of_nodup (finList_nodup s), finList_toFinset]

theorem mem_listProd {α β : Type} {as : List α} {bs : List β} {a : α} {b : β} :
    (a, b) ∈ listProd as bs ↔ a ∈ as ∧ b ∈ bs := by
  simp [listProd, List.mem_flatMap, List.mem_map]

theorem mapOptionList_mem {α β : Type} {f : α → Option β} :
    ∀ {l : List α} {r : List β} {a : α} {b : β},
      mapOptionList f l = some r → a ∈ l → f a = some b → b ∈ r := by
  intro l
  induction l with
  | nil => intro r a b h ha; simp at ha
  | cons x t ih =>
    intro r a b h ha hb
    simp only [mapOptionList, Option.bind_eq_some, Option.map_eq_some'] at h
    obtain ⟨y, hy, r', hr', rfl⟩ := h
    rcases List.mem_cons.mp ha with rfl | hat
    · rw [hb] at hy
      obtain rfl : b = y := Option.some_inj.mp hy
      exact List.mem_cons_self _ _
    · exact List.mem_cons_of_mem _ (ih hr' hat hb)

theorem mapOptionList_fst {α β : Type} {f : α → Option β} {g : β → α}
    (hf : ∀ a b, f a = some b → g b = a) :
    ∀ {l : List α} {r : List β}, mapOptionList f l = some r → r.map g = l := by
  intro l
  induction l with
  | nil => intro r h; simp [mapOptionList] at h; simp [← h]
  | cons x t ih =>
    intro r h
    simp only [mapOptionList, Option.bind_eq_some, Option.map_eq_some'] at h
    obtain ⟨y, hy, r', hr', rfl⟩ := h
    simp [hf x y hy, ih hr']

theorem mapOptionList_isSome {α β : Type} {f : α → Option β} :
    ∀ {l : List α}, (∀ a ∈ l, (f a).isSome) → (mapOptionList f l).isSome := by
  intro l
  induction l with
  | nil => intro _; simp [mapOptionList]
  | cons x t ih =>
    intro h
    have hx := h x (List.mem_cons_self x t)
    obtain ⟨b, hb⟩ := Option.isSome_iff_exists.mp hx
    have ht := ih (fun a ha => h a (List.mem_cons_of_mem _ ha))
    obtain ⟨r, hr⟩ := Option.isSome_iff_exists.mp ht
    simp [mapOptionList, hb, hr]

theorem mapOptionList_length {α β : Type} {f : α → Option β} :
    ∀ {l : List α} {r : List β}, mapOptionList f l = some r → r.length = l.length := by
  intro l
  induction l with
  | nil => intro r h; simp [mapOptionList] at h; simp [← h]
  | cons x t ih =>
    intro r h
    simp only [mapOptionList, Option.bind_eq_some, Option.map_eq_some'] at h
    obtain ⟨y, hy, r', hr', rfl⟩ := h
    simp [ih hr']

theorem mapOptionList_mem_rev {α β : Type} {f : α → Option β} :
    ∀ {l : List α} {r : List β} {b : β},
      mapOptionList f l = some r → b ∈ r → ∃ a ∈ l, f a = some b := by
  intro l
  induction l with
  | nil =>
    intro r b h hb
    simp [mapOptionList] at h
    subst h
    simp at hb
  | cons x t ih =>
    intro r b h hb
    simp only [mapOptionList, Option.bind_eq_some, Option.map_eq_some'] at h
    obtain ⟨y, hy, r', hr', rfl⟩ := h
    rcases List.mem_cons.mp hb with rfl | hbr
    · exact ⟨x, List.mem_cons_self x t, hy⟩
    · obtain ⟨a, ha, hfa⟩ := ih hr' hbr
      exact ⟨a, List.mem_cons_of_mem _ ha, hfa⟩

end Gops

namespace Gops

/-- The branch on equal moves in gops.py line 191-192 coincides with the
uniform formula `top_card * sign(player_move - opponent_move)`. -/
theorem moveValue_eq (top pm om : ℕ) :
    moveValue top pm om = (top : ℚ) * sign ((pm : ℤ) - (om : ℤ)) := by
  unfold moveValue sign
  by_cases h : pm = om
  · subst h
    simp
  · simp [h]

end Gops

/-- C6: for every GameState `s` (in both source variants),
`opposite(opposite(s)) == s`, where `opposite` returns a state with the
player and opponent card collections swapped and the deck collection
unchanged. -/
theorem claim_C6_opposite_involutive :
    ∀ (s : Gops.GameState) (t : PM.GameState),
      s.opposite.player_cards = s.opponent_cards ∧
      s.opposite.opponent_cards = s.player_cards ∧
      s.opposite.deck_cards = s.deck_cards ∧
      s.opposite.opposite = s ∧
      t.opposite.player_cards = t.opponent_cards ∧
      t.opposite.opponent_cards = t.player_cards ∧
      t.opposite.deck_cards = t.deck_cards ∧
      t.opposite.opposite = t := by
  intro s t
  exact ⟨rfl, rfl, rfl, rfl, rfl, rfl, rfl, rfl⟩

/-- C7: when the three played cards are members of their respective
collections, `after_round` shrinks each collection by exactly one card
and none of the played cards remains a member; playing a card that is
not in its collection breaks the same-number-of-cards invariant that the
`GameState` constructor asserts fatally. -/
theorem claim_C7_after_round :
    (∀ (s : Gops.GameState) (revealed pm om : ℕ),
        revealed ∈ s.deck_cards → pm ∈ s.player_cards → om ∈ s.opponent_cards →
        (s.afterRound revealed pm om).player_cards.card + 1 = s.player_cards.card ∧
        (s.afterRound revealed pm om).opponent_cards.card + 1 = s.opponent_cards.card ∧
        (s.afterRound revealed pm om).deck_cards.card + 1 = s.deck_cards.card ∧
        pm ∉ (s.afterRound revealed pm om).player_cards ∧
        om ∉ (s.afterRound revealed pm om).opponent_cards ∧
        revealed ∉ (s.afterRound revealed pm om).deck_cards) ∧
    (∀ (s : Gops.GameState) (revealed pm om : ℕ),
        Gops.sameNumberOfCards s → pm ∉ s.player_cards → om ∈ s.opponent_cards →
        revealed ∈ s.deck_cards →
        ¬ Gops.sameNumberOfCards (s.afterRound revealed pm om)) := by
  constructor
  · intro s revealed pm om hr hpm hom
    refine ⟨?_, ?_, ?_, ?_, ?_, ?_⟩
    · show (s.player_cards \ {pm}).card + 1 = s.player_cards.card
      rw [Finset.sdiff_singleton_eq_erase, Finset.card_erase_of_mem hpm]
      exact Nat.succ_pred_eq_of_pos (Finset.card_pos.mpr ⟨pm, hpm⟩)
    · show (s.opponent_cards \ {om}).card + 1 = s.opponent_cards.card
      rw [Finset.sdiff_singleton_eq_erase, Finset.card_erase_of_mem hom]
      exact Nat.succ_pred_eq_of_pos (Finset.card_pos.mpr ⟨om, hom⟩)
    · show (s.deck_cards \ {revealed}).card + 1 = s.deck_cards.card
      rw [Finset.sdiff_singleton_eq_erase, Finset.card_erase_of_mem hr]
      exact Nat.succ_pred_eq_of_pos (Finset.card_pos.mpr ⟨revealed, hr⟩)
    · show pm ∉ s.player_cards \ {pm}
      rw [Finset.sdiff_singleton_eq_erase]
      exact Finset.not_mem_erase pm _
    · show om ∉ s.opponent_cards \ {om}
      rw [Finset.sdiff_singleton_eq_erase]
      exact Finset.not_mem_erase om _
    · show revealed ∉ s.deck_cards \ {revealed}
      rw [Finset.sdiff_singleton_eq_erase]
      exact Finset.not_mem_erase revealed _
  · intro s revealed pm om hsame hpm hom hr hcontra
    have hpl : s.player_cards \ {pm} = s.player_cards := by
      rw [Finset.sdiff_singleton_eq_erase, Finset.erase_eq_of_not_mem hpm]
    have hop : (s.opponent_cards \ {om}).card = s.opponent_cards.card - 1 := by
      rw [Finset.sdiff_singleton_eq_erase, Finset.card_erase_of_mem hom]
    have hpos : 1 ≤ s.opponent_cards.card := Finset.card_pos.mpr ⟨om, hom⟩
    have h1 : (s.afterRound revealed pm om).player_cards.card = s.player_cards.card := by
      show (s.player_cards \ {pm}).card = s.player_cards.card
      rw [hpl]
    have h2 : (s.afterRound revealed pm om).opponent_cards.card =
        s.opponent_cards.card - 1 := hop
    obtain ⟨hc1, _⟩ := hcontra
    obtain ⟨hs1, _⟩ := hsame
    rw [h1, h2] at hc1
    omega

/-- C7 witness: a concrete round played from the full 2-card position,
and a concrete invariant violation when the player move is not in hand. -/
theorem claim_C7_witness :
    ((1 ∈ (Gops.GameState.mk {1, 2} {1, 2} {1, 2}).deck_cards) ∧
     (1 ∈ (Gops.GameState.mk {1, 2} {1, 2} {1, 2}).player_cards) ∧
     (2 ∈ (Gops.GameState.mk {1, 2} {1, 2} {1, 2}).opponent_cards)) ∧
    (((Gops.GameState.mk {1, 2} {1, 2} {1, 2}).afterRound 1 1 2).player_cards.card + 1 =
        (Gops.GameState.mk {1, 2} {1, 2} {1, 2}).player_cards.card ∧
     ((Gops.GameState.mk {1, 2} {1, 2} {1, 2}).afterRound 1 1 2).opponent_cards.card + 1 =
        (Gops.GameState.mk {1, 2} {1, 2} {1, 2}).opponent_cards.card ∧
     ((Gops.GameState.mk {1, 2} {1, 2} {1, 2}).afterRound 1 1 2).deck_cards.card + 1 =
        (Gops.GameState.mk {1, 2} {1, 2} {1, 2}).deck_cards.card ∧
     1 ∉ ((Gops.GameState.mk {1, 2} {1, 2} {1, 2}).afterRound 1 1 2).player_cards ∧
     2 ∉ ((Gops.GameState.mk {1, 2} {1, 2} {1, 2}).afterRound 1 1 2).opponent_cards ∧
     1 ∉ ((Gops.GameState.mk {1, 2} {1, 2} {1, 2}).afterRound 1 1 2).deck_cards) ∧
    (Gops.sameNumberOfCards (Gops.GameState.mk {1} {2} {3}) ∧ 5 ∉ ({1} : Finset ℕ)) ∧
    ¬ Gops.sameNumberOfCards ((Gops.GameState.mk {1} {2} {3}).afterRound 3 5 2) :=
  ⟨⟨by decide, by decide, by decide⟩,
   claim_C7_after_round.1 (Gops.GameState.mk {1, 2} {1, 2} {1, 2}) 1 1 2
     (by decide) (by decide) (by decide),
   ⟨by decide, by decide⟩,
   claim_C7_after_round.2 (Gops.GameState.mk {1} {2} {3}) 3 5 2
     (by decide) (by decide) (by decide) (by decide)⟩

/-- C3: the value-cache lookup follows the four-step algorithm: mirrored
hands return `0` whatever the store holds; otherwise a stored value for
the state itself is returned; otherwise the stored value of the opposite
state is negated; otherwise the lookup fails with a cache-miss error and
in particular never returns a default of zero. -/
theorem claim_C3_value_cache_lookup :
    (∀ (values : List (PM.GameState × ℚ)) (s : PM.GameState),
        s.player_cards = s.opponent_cards →
        PM.cacheGetItem values s = Except.ok 0) ∧
    (∀ (values : List (PM.GameState × ℚ)) (s : PM.GameState) (v : ℚ),
        s.player_cards ≠ s.opponent_cards → PM.findVal values s = some v →
        PM.cacheGetItem values s = Except.ok v) ∧
    (∀ (values : List (PM.GameState × ℚ)) (s : PM.GameState) (w : ℚ),
        s.player_cards ≠ s.opponent_cards → PM.findVal values s = none →
        PM.findVal values s.opposite = some w →
        PM.cacheGetItem values s = Except.ok (-w)) ∧
    (∀ (values : List (PM.GameState × ℚ)) (s : PM.GameState),
        s.player_cards ≠ s.opponent_cards → PM.findVal values s = none →
        PM.findVal values s.opposite = none →
        PM.cacheGetItem values s = Except.error PM.CacheError.cacheMiss ∧
        ∀ q : ℚ, PM.cacheGetItem values s ≠ Except.ok q) := by
  refine ⟨?_, ?_, ?_, ?_⟩
  · intro values s h
    unfold PM.cacheGetItem
    rw [if_pos h]
  · intro values s v hne hfind
    unfold PM.cacheGetItem
    rw [if_neg hne, hfind]
  · intro values s w hne hfind hopp
    unfold PM.cacheGetItem
    rw [if_neg hne, hfind, hopp]
  · intro values s hne hfind hopp
    constructor
    · unfold PM.cacheGetItem
      rw [if_neg hne, hfind, hopp]
    · intro q hq
      unfold PM.cacheGetItem at hq
      rw [if_neg hne, hfind, hopp] at hq
      exact Except.noConfusion hq

/-- C3 witness: a one-entry store exercising all four steps on concrete
states. -/
theorem claim_C3_witness :
    PM.cacheGetItem [(PM.GameState.mk {1} {2} [3], (5 : ℚ))]
        (PM.GameState.mk {1} {1} [3]) = Except.ok 0 ∧
    PM.cacheGetItem [(PM.GameState.mk {1} {2} [3], (5 : ℚ))]
        (PM.GameState.mk {1} {2} [3]) = Except.ok 5 ∧
    PM.cacheGetItem [(PM.GameState.mk {1} {2} [3], (5 : ℚ))]
        (PM.GameState.mk {2} {1} [3]) = Except.ok (-5) ∧
    PM.cacheGetItem [(PM.GameState.mk {1} {2} [3], (5 : ℚ))]
        (PM.GameState.mk {1} {3} [2]) = Except.error PM.CacheError.cacheMiss :=
  ⟨claim_C3_value_cache_lookup.1 _ _ (by decide),
   claim_C3_value_cache_lookup.2.1 _ _ 5 (by decide) (by decide),
   claim_C3_value_cache_lookup.2.2.1 _ _ 5 (by decide) (by decide) (by decide),
   (claim_C3_value_cache_lookup.2.2.2 _ _ (by decide) (by decide) (by decide)).1⟩

/-- C1: for a state with at least two cards in each collection and a top
card from its deck, the built payoff matrix has one entry for every pair
in the Cartesian product of the two hands, and the entry for
`(player_move, opponent_move)` is
`top_card * sign(player_move - opponent_move)` plus the cached
continuation value of `after_round(top_card, player_move, opponent_move)`. -/
theorem claim_C1_payoff_matrix_entries
    (cache : List (Gops.GameState × ℚ)) (s : Gops.GameState) (top pm om : ℕ)
    (M : List ((ℕ × ℕ) × ℚ)) (c : ℚ)
    (h2p : 2 ≤ s.player_cards.card) (h2o : 2 ≤ s.opponent_cards.card)
    (h2d : 2 ≤ s.deck_cards.card)
    (htop : top ∈ s.deck_cards) (hpm : pm ∈ s.player_cards)
    (hom : om ∈ s.opponent_cards)
    (hM : Gops.buildPayoffMatrix cache s top = some M)
    (hc : Gops.lookupContinuation cache (s.afterRound top pm om) = some c) :
    M.map Prod.fst =
        Gops.listProd (Gops.finList s.player_cards) (Gops.finList s.opponent_cards) ∧
    ((pm, om), (top : ℚ) * Gops.sign ((pm : ℤ) - (om : ℤ)) + c) ∈ M := by
  unfold Gops.buildPayoffMatrix at hM
  constructor
  · refine Gops.mapOptionList_fst ?_ hM
    intro a b hfb
    simp only [Option.map_eq_some'] at hfb
    obtain ⟨c', _, rfl⟩ := hfb
    rfl
  · have hmem : (pm, om) ∈
        Gops.listProd (Gops.finList s.player_cards) (Gops.finList s.opponent_cards) :=
      Gops.mem_listProd.mpr ⟨Gops.mem_finList.mpr hpm, Gops.mem_finList.mpr hom⟩
    have hf : (Gops.lookupContinuation cache (s.afterRound top (pm, om).1 (pm, om).2)).map
        (fun c0 => ((pm, om), Gops.moveValue top (pm, om).1 (pm, om).2 + c0)) =
        some ((pm, om), Gops.moveValue top pm om + c) := by
      simp only [hc, Option.map_some']
    have hin := Gops.mapOptionList_mem hM hmem hf
    rw [Gops.moveValue_eq] at hin
    exact hin

/-- C1 witness: the starting 2-card position with top card 1, a cache
holding all four continuations, and the entry at the move pair (1, 2). -/
theorem claim_C1_witness :
    (2 ≤ (Gops.GameState.mk {1, 2} {1, 2} {1, 2}).player_cards.card ∧
     2 ≤ (Gops.GameState.mk {1, 2} {1, 2} {1, 2}).opponent_cards.card ∧
     2 ≤ (Gops.GameState.mk {1, 2} {1, 2} {1, 2}).deck_cards.card ∧
     1 ∈ (Gops.GameState.mk {1, 2} {1, 2} {1, 2}).deck_cards ∧
     1 ∈ (Gops.GameState.mk {1, 2} {1, 2} {1, 2}).player_cards ∧
     2 ∈ (Gops.GameState.mk {1, 2} {1, 2} {1, 2}).opponent_cards ∧
     Gops.buildPayoffMatrix
       [(Gops.GameState.mk {2} {2} {2}, (0 : ℚ)), (Gops.GameState.mk {2} {1} {2}, 0),
        (Gops.GameState.mk {1} {2} {2}, 0), (Gops.GameState.mk {1} {1} {2}, 0)]
       (Gops.GameState.mk {1, 2} {1, 2} {1, 2}) 1 =
       some [((1, 1), (0 : ℚ)), ((1, 2), -1), ((2, 1), 1), ((2, 2), 0)] ∧
     Gops.lookupContinuation
       [(Gops.GameState.mk {2} {2} {2}, (0 : ℚ)), (Gops.GameState.mk {2} {1} {2}, 0),
        (Gops.GameState.mk {1} {2} {2}, 0), (Gops.GameState.mk {1} {1} {2}, 0)]
       ((Gops.GameState.mk {1, 2} {1, 2} {1, 2}).afterRound 1 1 2) = some 0) ∧
    ([((1, 1), (0 : ℚ)), ((1, 2), -1), ((2, 1), 1), ((2, 2), 0)].map Prod.fst =
        Gops.listProd (Gops.finList ({1, 2} : Finset ℕ)) (Gops.finList ({1, 2} : Finset ℕ)) ∧
     ((1, 2), (1 : ℚ) * Gops.sign ((1 : ℤ) - (2 : ℤ)) + 0) ∈
        [((1, 1), (0 : ℚ)), ((1, 2), -1), ((2, 1), 1), ((2, 2), 0)]) :=
  ⟨⟨by decide, by decide, by decide, by decide, by decide, by decide,
    by with_unfolding_all decide, by with_unfolding_all decide⟩,
   claim_C1_payoff_matrix_entries
     [(Gops.GameState.mk {2} {2} {2}, (0 : ℚ)), (Gops.GameState.mk {2} {1} {2}, 0),
      (Gops.GameState.mk {1} {2} {2}, 0), (Gops.GameState.mk {1} {1} {2}, 0)]
     (Gops.GameState.mk {1, 2} {1, 2} {1, 2}) 1 1 2
     [((1, 1), (0 : ℚ)), ((1, 2), -1), ((2, 1), 1), ((2, 2), 0)] 0
     (by decide) (by decide) (by decide)
     (by decide) (by decide) (by decide)
     (by with_unfolding_all decide) (by with_unfolding_all decide)⟩

namespace Gops

/-! Helper lemmas bridging the code's list-based linear expressions and
the spec's indexed sums. -/

theorem zipWith_mul_sum :
    ∀ (as bs : List ℚ), as.length = bs.length →
      (List.zipWith (· * ·) as bs).sum =
        ∑ i ∈ Finset.range as.length, as.getD i 0 * bs.getD i 0 := by
  intro as
  induction as with
  | nil => intro bs _; simp
  | cons a as ih =>
    intro bs h
    cases bs with
    | nil => simp at h
    | cons b bs =>
      have h' : as.length = bs.length := by simpa using h
      simp only [List.zipWith_cons_cons, List.sum_cons, List.length_cons]
      rw [Finset.sum_range_succ', ih bs h']
      simp only [List.getD_cons_succ, List.getD_cons_zero]
      ring

theorem list_sum_getD (xs : List ℚ) :
    xs.sum = ∑ i ∈ Finset.range xs.length, xs.getD i 0 := by
  induction xs with
  | nil => simp
  | cons x t ih =>
    simp only [List.sum_cons, List.length_cons]
    rw [Finset.sum_range_succ']
    simp only [List.getD_cons_succ, List.getD_cons_zero]
    rw [← ih]
    ring

theorem forall_mem_iff_getD (xs : List ℚ) :
    (∀ xi ∈ xs, 0 ≤ xi) ↔ ∀ i ∈ Finset.range xs.length, 0 ≤ xs.getD i 0 := by
  constructor
  · intro h i hi
    rw [Finset.mem_range] at hi
    rw [List.getD_eq_getElem _ _ hi]
    exact h _ (List.getElem_mem hi)
  · intro h xi hxi
    obtain ⟨i, hi, rfl⟩ := List.mem_iff_getElem.mp hxi
    have := h i (Finset.mem_range.mpr hi)
    rwa [List.getD_eq_getElem _ _ hi] at this

theorem transposedRow_getD (payoff : ℕ → ℕ → ℚ) (pcs : List ℕ) (oc : ℕ) (i : ℕ)
    (hi : i < pcs.length) :
    (transposedRow payoff pcs oc).getD i 0 = payoff (pcs.getD i 0) oc := by
  unfold transposedRow
  rw [List.getD_eq_getElem _ _ (by simpa using hi), List.getElem_map,
    List.getD_eq_getElem _ _ hi]

/-- The feasible set the code constructs coincides with the spec's
feasible set, for aligned variable vectors. -/
theorem codeLPFeasible_iff_specLPFeasible (pcs ocs : List ℕ) (payoff : ℕ → ℕ → ℚ)
    (xs : List ℚ) (v : ℚ) (hlen : xs.length = pcs.length) :
    codeLPFeasible pcs ocs payoff xs v ↔ specLPFeasible pcs ocs payoff xs v := by
  unfold codeLPFeasible specLPFeasible
  have hsum : ∀ oc : ℕ,
      (List.zipWith (· * ·) (transposedRow payoff pcs oc) xs).sum =
        ∑ i ∈ Finset.range pcs.length, payoff (pcs.getD i 0) oc * xs.getD i 0 := by
    intro oc
    rw [zipWith_mul_sum _ _ (by simp [transposedRow, hlen])]
    have hr : (transposedRow payoff pcs oc).length = pcs.length := by
      simp [transposedRow]
    rw [hr]
    refine Finset.sum_congr rfl ?_
    intro i hi
    rw [transposedRow_getD payoff pcs oc i (Finset.mem_range.mp hi)]
  constructor
  · intro ⟨h1, h2, h3⟩
    refine ⟨?_, ?_, ?_⟩
    · intro oc hoc
      have := h1 oc hoc
      rw [hsum oc] at this
      linarith
    · rw [← hlen, ← list_sum_getD]
      exact h2
    · rw [← hlen]
      exact (forall_mem_iff_getD xs).mp h3
  · intro ⟨h1, h2, h3⟩
    refine ⟨?_, ?_, ?_⟩
    · intro oc hoc
      have := h1 oc hoc
      rw [hsum oc]
      linarith
    · rw [list_sum_getD, hlen]
      exact h2
    · refine (forall_mem_iff_getD xs).mpr ?_
      rw [hlen]
      exact h3

end Gops

/-- C2: the linear program built by `optimize_player_strategy` is exactly
the spec's minimax LP (same feasible set and same optimal solutions, for
variable vectors aligned with the player's hand), and the returned
Strategy pairs each player card with its optimal variable value and
carries the optimal `v` as its expected value. -/
theorem claim_C2_equilibrium_lp (pcs ocs : List ℕ) (payoff : ℕ → ℕ → ℚ)
    (xs : List ℚ) (v : ℚ) (hlen : xs.length = pcs.length) :
    (Gops.codeLPFeasible pcs ocs payoff xs v ↔ Gops.specLPFeasible pcs ocs payoff xs v) ∧
    (Gops.codeLPOptimal pcs ocs payoff xs v ↔ Gops.specLPOptimal pcs ocs payoff xs v) ∧
    (Gops.optimizePlayerStrategy pcs xs v).card_probabilities = pcs.zip xs ∧
    (Gops.optimizePlayerStrategy pcs xs v).expected_value = v := by
  refine ⟨Gops.codeLPFeasible_iff_specLPFeasible pcs ocs payoff xs v hlen, ?_, rfl, rfl⟩
  unfold Gops.codeLPOptimal Gops.specLPOptimal
  constructor
  · intro ⟨hf, hmax⟩
    refine ⟨(Gops.codeLPFeasible_iff_specLPFeasible pcs ocs payoff xs v hlen).mp hf, ?_⟩
    intro xs' v' hl hf'
    exact hmax xs' v' hl
      ((Gops.codeLPFeasible_iff_specLPFeasible pcs ocs payoff xs' v' hl).mpr hf')
  · intro ⟨hf, hmax⟩
    refine ⟨(Gops.codeLPFeasible_iff_specLPFeasible pcs ocs payoff xs v hlen).mpr hf, ?_⟩
    intro xs' v' hl hf'
    exact hmax xs' v' hl
      ((Gops.codeLPFeasible_iff_specLPFeasible pcs ocs payoff xs' v' hl).mp hf')

/-- C2 witness: the one-card LP with zero payoffs. -/
theorem claim_C2_witness :
    ([(1 : ℚ)].length = [1].length) ∧
    ((Gops.codeLPFeasible [1] [1] (fun _ _ => 0) [(1 : ℚ)] 0 ↔
        Gops.specLPFeasible [1] [1] (fun _ _ => 0) [(1 : ℚ)] 0) ∧
     (Gops.codeLPOptimal [1] [1] (fun _ _ => 0) [(1 : ℚ)] 0 ↔
        Gops.specLPOptimal [1] [1] (fun _ _ => 0) [(1 : ℚ)] 0) ∧
     (Gops.optimizePlayerStrategy [1] [(1 : ℚ)] 0).card_probabilities = [1].zip [(1 : ℚ)] ∧
     (Gops.optimizePlayerStrategy [1] [(1 : ℚ)] 0).expected_value = 0) :=
  ⟨by decide, claim_C2_equilibrium_lp [1] [1] (fun _ _ => 0) [(1 : ℚ)] 0 (by decide)⟩

namespace Gops

/-! Combinatorial facts about `combos` (itertools.combinations),
`cwr2` (combinations_with_replacement of arity 2) and the state
enumeration built from them. -/

theorem mem_combos : ∀ (ys : List ℕ) (k : ℕ) (l : List ℕ),
    l ∈ combos k ys ↔ l.Sublist ys ∧ l.length = k := by
  intro ys
  induction ys with
  | nil =>
    intro k l
    cases k with
    | zero =>
      simp only [combos, List.mem_singleton]
      constructor
      · rintro rfl
        exact ⟨List.nil_sublist _, rfl⟩
      · rintro ⟨_, hl⟩
        exact List.length_eq_zero.mp hl
    | succ k =>
      simp only [combos, List.not_mem_nil, false_iff, not_and]
      intro hs
      rw [List.sublist_nil.mp hs]
      simp
  | cons y t ih =>
    intro k l
    cases k with
    | zero =>
      simp only [combos, List.mem_singleton]
      constructor
      · rintro rfl
        exact ⟨List.nil_sublist _, rfl⟩
      · rintro ⟨_, hl⟩
        exact List.length_eq_zero.mp hl
    | succ k =>
      simp only [combos, List.mem_append, List.mem_map]
      constructor
      · rintro (⟨l', hl', rfl⟩ | h)
        · obtain ⟨hs, hlen⟩ := (ih k l').mp hl'
          exact ⟨hs.cons₂ y, by simp [hlen]⟩
        · obtain ⟨hs, hlen⟩ := (ih (k + 1) l).mp h
          exact ⟨hs.cons y, hlen⟩
      · rintro ⟨hs, hlen⟩
        cases hs with
        | cons _ h2 =>
          exact Or.inr ((ih (k + 1) l).mpr ⟨h2, hlen⟩)
        | cons₂ _ h2 =>
          exact Or.inl ⟨_, (ih k _).mpr ⟨h2, by simpa using hlen⟩, rfl⟩

theorem combos_mono_cons {k y : ℕ} {t l : List ℕ} (h : l ∈ combos k t) :
    l ∈ combos k (y :: t) := by
  cases k with
  | zero => simpa [combos] using h
  | succ k =>
    simp only [combos, List.mem_append]
    exact Or.inr h

theorem combos_complete : ∀ (ys : List ℕ) (X : Finset ℕ), (∀ x ∈ X, x ∈ ys) →
    ∃ l, l ∈ combos X.card ys ∧ l.toFinset = X := by
  intro ys
  induction ys with
  | nil =>
    intro X hX
    have hXe : X = ∅ := by
      apply Finset.eq_empty_of_forall_not_mem
      intro x hx
      simpa using hX x hx
    subst hXe
    exact ⟨[], by simp [combos], by simp⟩
  | cons y t ih =>
    intro X hX
    by_cases hy : y ∈ X
    · have hsub : ∀ x ∈ X.erase y, x ∈ t := by
        intro x hx
        obtain ⟨hne, hxX⟩ := Finset.mem_erase.mp hx
        rcases List.mem_cons.mp (hX x hxX) with rfl | hxt
        · exact absurd rfl hne
        · exact hxt
      obtain ⟨l', hl', hfl'⟩ := ih (X.erase y) hsub
      refine ⟨y :: l', ?_, ?_⟩
      · have hc : X.card = (X.erase y).card + 1 := (Finset.card_erase_add_one hy).symm
        rw [hc]
        simp only [combos, List.mem_append, List.mem_map]
        exact Or.inl ⟨l', hl', rfl⟩
      · rw [List.toFinset_cons, hfl', Finset.insert_erase hy]
    · have hsub : ∀ x ∈ X, x ∈ t := by
        intro x hx
        rcases List.mem_cons.mp (hX x hx) with rfl | hxt
        · exact absurd hx hy
        · exact hxt
      obtain ⟨l', hl', hfl'⟩ := ih X hsub
      exact ⟨l', combos_mono_cons hl', hfl'⟩

theorem combos_inj (ys : List ℕ) (hys : ys.Pairwise (· < ·)) {k : ℕ} {l₁ l₂ : List ℕ}
    (h₁ : l₁ ∈ combos k ys) (h₂ : l₂ ∈ combos k ys)
    (hf : l₁.toFinset = l₂.toFinset) : l₁ = l₂ := by
  obtain ⟨hs₁, _⟩ := (mem_combos ys k l₁).mp h₁
  obtain ⟨hs₂, _⟩ := (mem_combos ys k l₂).mp h₂
  have hp₁ : l₁.Pairwise (· < ·) := hys.sublist hs₁
  have hp₂ : l₂.Pairwise (· < ·) := hys.sublist hs₂
  have hn₁ : l₁.Nodup := hp₁.imp (fun h => Nat.ne_of_lt h)
  have hn₂ : l₂.Nodup := hp₂.imp (fun h => Nat.ne_of_lt h)
  exact List.eq_of_perm_of_sorted (List.perm_of_nodup_nodup_toFinset_eq hn₁ hn₂ hf)
    (hp₁.imp fun h => Nat.le_of_lt h) (hp₂.imp fun h => Nat.le_of_lt h)

theorem combos_nodup : ∀ (ys : List ℕ), ys.Nodup → ∀ (k : ℕ), (combos k ys).Nodup := by
  intro ys
  induction ys with
  | nil =>
    intro _ k
    cases k <;> simp [combos]
  | cons y t ih =>
    intro hnd k
    have hyt : y ∉ t := (List.nodup_cons.mp hnd).1
    have ht : t.Nodup := (List.nodup_cons.mp hnd).2
    cases k with
    | zero => simp [combos]
    | succ k =>
      simp only [combos]
      apply List.Nodup.append
      · exact List.Nodup.map_on
          (fun a _ b _ h => by injection h) (ih ht k)
      · exact ih ht (k + 1)
      · intro l hl1 hl2
        obtain ⟨l', _, rfl⟩ := List.mem_map.mp hl1
        have hs := ((mem_combos t (k + 1) (y :: l')).mp hl2).1
        exact hyt (hs.subset (List.mem_cons_self y l'))

theorem cardRange_pairwise (m : ℕ) : (cardRange m).Pairwise (· < ·) :=
  (List.pairwise_lt_range m).map (· + 1) (fun _ _ h => Nat.add_lt_add_right h 1)

theorem cardRange_nodup (m : ℕ) : (cardRange m).Nodup :=
  (cardRange_pairwise m).imp (fun h => Nat.ne_of_lt h)

theorem mem_cardRange {m x : ℕ} : x ∈ cardRange m ↔ 1 ≤ x ∧ x ≤ m := by
  unfold cardRange
  simp only [List.mem_map, List.mem_range]
  constructor
  · rintro ⟨y, hy, rfl⟩
    omega
  · intro ⟨h1, h2⟩
    exact ⟨x - 1, by omega, by omega⟩

theorem cwr2_mem_of_mem {α : Type} :
    ∀ {xs : List α} {a b : α}, (a, b) ∈ cwr2 xs → a ∈ xs ∧ b ∈ xs := by
  intro xs
  induction xs with
  | nil =>
    intro a b h
    simp [cwr2] at h
  | cons x t ih =>
    intro a b h
    simp only [cwr2, List.mem_cons, List.mem_append, List.mem_map, Prod.mk.injEq] at h
    rcases h with ⟨rfl, rfl⟩ | ⟨y, hy, rfl, rfl⟩ | h
    · exact ⟨List.mem_cons_self _ _, List.mem_cons_self _ _⟩
    · exact ⟨List.mem_cons_self _ _, List.mem_cons_of_mem _ hy⟩
    · obtain ⟨ha, hb⟩ := ih h
      exact ⟨List.mem_cons_of_mem _ ha, List.mem_cons_of_mem _ hb⟩

theorem cwr2_complete {α : Type} :
    ∀ {xs : List α} {a b : α}, a ∈ xs → b ∈ xs →
      (a, b) ∈ cwr2 xs ∨ (b, a) ∈ cwr2 xs := by
  intro xs
  induction xs with
  | nil =>
    intro a b ha _
    simp at ha
  | cons x t ih =>
    intro a b ha hb
    rcases List.mem_cons.mp ha with rfl | hat
    · left
      simp only [cwr2, List.mem_cons, List.mem_append, List.mem_map]
      rcases List.mem_cons.mp hb with rfl | hbt
      · exact Or.inl rfl
      · exact Or.inr (Or.inl ⟨b, hbt, rfl⟩)
    · rcases List.mem_cons.mp hb with rfl | hbt
      · right
        simp only [cwr2, List.mem_cons, List.mem_append, List.mem_map]
        exact Or.inr (Or.inl ⟨a, hat, rfl⟩)
      · rcases ih hat hbt with h | h
        · left
          simp only [cwr2, List.mem_cons, List.mem_append]
          exact Or.inr (Or.inr h)
        · right
          simp only [cwr2, List.mem_cons, List.mem_append]
          exact Or.inr (Or.inr h)

theorem cwr2_antisymm {α : Type} :
    ∀ {xs : List α}, xs.Nodup → ∀ {a b : α},
      (a, b) ∈ cwr2 xs → (b, a) ∈ cwr2 xs → a = b := by
  intro xs
  induction xs with
  | nil =>
    intro _ a b h
    simp [cwr2] at h
  | cons x t ih =>
    intro hnd a b hab hba
    have hxt : x ∉ t := (List.nodup_cons.mp hnd).1
    have ht : t.Nodup := (List.nodup_cons.mp hnd).2
    simp only [cwr2, List.mem_cons, List.mem_append, List.mem_map, Prod.mk.injEq] at hab hba
    rcases hab with ⟨rfl, rfl⟩ | ⟨y, hy, rfl, rfl⟩ | hab
    · rfl
    · rcases hba with ⟨h1, _⟩ | ⟨z, hz, _, h2⟩ | hba
      · exact absurd (h1 ▸ hy) hxt
      · subst h2
        exact absurd hz hxt
      · exact absurd (cwr2_mem_of_mem hba).2 hxt
    · rcases hba with ⟨h1, h2⟩ | ⟨z, hz, h1, h2⟩ | hba
      · exact h2.trans h1.symm
      · subst h1
        exact absurd (cwr2_mem_of_mem hab).2 hxt
      · exact ih ht hab hba

theorem cwr2_nodup {α : Type} :
    ∀ {xs : List α}, xs.Nodup → (cwr2 xs).Nodup := by
  intro xs
  induction xs with
  | nil =>
    intro _
    simp [cwr2]
  | cons x t ih =>
    intro hnd
    have hxt : x ∉ t := (List.nodup_cons.mp hnd).1
    have ht : t.Nodup := (List.nodup_cons.mp hnd).2
    simp only [cwr2]
    rw [List.nodup_cons]
    constructor
    · intro hmem
      rcases List.mem_append.mp hmem with h | h
      · obtain ⟨y, hy, hxy⟩ := List.mem_map.mp h
        have hyx : y = x := congrArg Prod.snd hxy
        exact hxt (hyx ▸ hy)
      · exact hxt (cwr2_mem_of_mem h).1
    · apply List.Nodup.append
      · exact List.Nodup.map_on (fun a _ b _ h => congrArg Prod.snd h) ht
      · exact ih ht
      · intro p hp1 hp2
        obtain ⟨y, _, rfl⟩ := List.mem_map.mp hp1
        exact hxt (cwr2_mem_of_mem hp2).1

theorem listProd_nodup {α β : Type} {bs : List β} :
    ∀ {as : List α}, as.Nodup → bs.Nodup → (listProd as bs).Nodup := by
  intro as
  induction as with
  | nil =>
    intro _ _
    simp [listProd]
  | cons a t ih =>
    intro ha hb
    have hat : a ∉ t := (List.nodup_cons.mp ha).1
    have ht : t.Nodup := (List.nodup_cons.mp ha).2
    unfold listProd
    simp only [List.flatMap_cons]
    apply List.Nodup.append
    · exact List.Nodup.map_on (fun x _ y _ h => congrArg Prod.snd h) hb
    · exact ih ht hb
    · intro p hp1 hp2
      obtain ⟨b, _, rfl⟩ := List.mem_map.mp hp1
      have : (a, b).1 ∈ t := by
        obtain ⟨a', ha', hmem⟩ := List.mem_flatMap.mp hp2
        obtain ⟨b', _, heq⟩ := List.mem_map.mp hmem
        have haa : a' = a := congrArg Prod.fst heq
        exact haa ▸ ha'
      exact hat this

theorem mem_ofSize {k m : ℕ} {s : GameState} :
    s ∈ GameState.ofSize k m ↔
      ∃ a b d, (a, b) ∈ cwr2 (combos k (cardRange m)) ∧ d ∈ combos k (cardRange m) ∧
        s = GameState.mk a.toFinset b.toFinset d.toFinset := by
  unfold GameState.ofSize
  simp only [List.mem_map]
  constructor
  · rintro ⟨⟨⟨a, b⟩, d⟩, hp, rfl⟩
    obtain ⟨hab, hd⟩ := mem_listProd.mp hp
    exact ⟨a, b, d, hab, hd, rfl⟩
  · rintro ⟨a, b, d, hab, hd, rfl⟩
    exact ⟨((a, b), d), mem_listProd.mpr ⟨hab, hd⟩, rfl⟩

theorem combo_toFinset_spec {k m : ℕ} {l : List ℕ} (h : l ∈ combos k (cardRange m)) :
    l.toFinset.card = k ∧ ∀ x ∈ l.toFinset, 1 ≤ x ∧ x ≤ m := by
  obtain ⟨hs, hlen⟩ := (mem_combos _ _ _).mp h
  have hnd : l.Nodup := List.Nodup.sublist hs (cardRange_nodup m)
  constructor
  · rw [List.toFinset_card_of_nodup hnd, hlen]
  · intro x hx
    exact mem_cardRange.mp (hs.subset (List.mem_toFinset.mp hx))

theorem ofSize_valid {k m : ℕ} {s : GameState} (h : s ∈ GameState.ofSize k m) :
    validState s k m := by
  obtain ⟨a, b, d, hab, hd, rfl⟩ := mem_ofSize.mp h
  obtain ⟨ha, hb⟩ := cwr2_mem_of_mem hab
  exact ⟨(combo_toFinset_spec ha).1, (combo_toFinset_spec hb).1, (combo_toFinset_spec hd).1,
    (combo_toFinset_spec ha).2, (combo_toFinset_spec hb).2, (combo_toFinset_spec hd).2⟩

theorem ofSize_complete {k m : ℕ} {s : GameState} (hv : validState s k m) :
    s ∈ GameState.ofSize k m ∨ s.opposite ∈ GameState.ofSize k m := by
  obtain ⟨hcp, hco, hcd, hrp, hro, hrd⟩ := hv
  obtain ⟨lp, hlp, hflp⟩ := combos_complete (cardRange m) s.player_cards
    (fun x hx => mem_cardRange.mpr (hrp x hx))
  obtain ⟨lo, hlo, hflo⟩ := combos_complete (cardRange m) s.opponent_cards
    (fun x hx => mem_cardRange.mpr (hro x hx))
  obtain ⟨ld, hld, hfld⟩ := combos_complete (cardRange m) s.deck_cards
    (fun x hx => mem_cardRange.mpr (hrd x hx))
  rw [hcp] at hlp
  rw [hco] at hlo
  rw [hcd] at hld
  rcases cwr2_complete hlp hlo with h | h
  · left
    rw [mem_ofSize]
    exact ⟨lp, lo, ld, h, hld, by rw [hflp, hflo, hfld]⟩
  · right
    rw [mem_ofSize]
    exact ⟨lo, lp, ld, h, hld, by rw [hflo, hflp, hfld]; rfl⟩

theorem ofSize_excl {k m : ℕ} {s : GameState} (hne : s.opposite ≠ s)
    (hs : s ∈ GameState.ofSize k m) (hopp : s.opposite ∈ GameState.ofSize k m) :
    False := by
  obtain ⟨a, b, d, hab, hd, hseq⟩ := mem_ofSize.mp hs
  obtain ⟨a', b', d', hab', hd', hoeq⟩ := mem_ofSize.mp hopp
  obtain ⟨ha, hb⟩ := cwr2_mem_of_mem hab
  obtain ⟨ha', hb'⟩ := cwr2_mem_of_mem hab'
  have h1 : a'.toFinset = b.toFinset := by
    have e1 : s.opposite.player_cards = a'.toFinset := by rw [hoeq]
    have e2 : s.opponent_cards = b.toFinset := by rw [hseq]
    exact e1.symm.trans e2
  have h2 : b'.toFinset = a.toFinset := by
    have e1 : s.opposite.opponent_cards = b'.toFinset := by rw [hoeq]
    have e2 : s.player_cards = a.toFinset := by rw [hseq]
    exact e1.symm.trans e2
  have hab2 : a' = b := combos_inj (cardRange m) (cardRange_pairwise m) ha' hb h1
  have hba2 : b' = a := combos_inj (cardRange m) (cardRange_pairwise m) hb' ha h2
  rw [hab2, hba2] at hab'
  have heq : a = b :=
    cwr2_antisymm (combos_nodup (cardRange m) (cardRange_nodup m) k) hab hab'
  apply hne
  rw [hseq, heq]
  rfl

theorem ofSize_nodup (k m : ℕ) : (GameState.ofSize k m).Nodup := by
  unfold GameState.ofSize
  apply List.Nodup.map_on
  · rintro ⟨⟨a, b⟩, d⟩ hp ⟨⟨a', b'⟩, d'⟩ hp' heq
    obtain ⟨hab, hd⟩ := mem_listProd.mp hp
    obtain ⟨hab', hd'⟩ := mem_listProd.mp hp'
    obtain ⟨ha, hb⟩ := cwr2_mem_of_mem hab
    obtain ⟨ha', hb'⟩ := cwr2_mem_of_mem hab'
    have h1 : a.toFinset = a'.toFinset := congrArg GameState.player_cards heq
    have h2 : b.toFinset = b'.toFinset := congrArg GameState.opponent_cards heq
    have h3 : d.toFinset = d'.toFinset := congrArg GameState.deck_cards heq
    have e1 : a = a' := combos_inj (cardRange m) (cardRange_pairwise m) ha ha' h1
    have e2 : b = b' := combos_inj (cardRange m) (cardRange_pairwise m) hb hb' h2
    have e3 : d = d' := combos_inj (cardRange m) (cardRange_pairwise m) hd hd' h3
    rw [e1, e2, e3]
  · exact listProd_nodup (cwr2_nodup (combos_nodup _ (cardRange_nodup m) k))
      (combos_nodup _ (cardRange_nodup m) k)

end Gops

namespace Gops

/-! Lookup helpers and preservation of validity across a round. -/

theorem findVal_isSome_of_mem :
    ∀ {cache : List (GameState × ℚ)} {s : GameState},
      s ∈ cache.map Prod.fst → (findVal cache s).isSome := by
  intro cache
  induction cache with
  | nil =>
    intro s h
    simp at h
  | cons p t ih =>
    intro s h
    obtain ⟨k, v⟩ := p
    simp only [List.map_cons, List.mem_cons] at h
    unfold findVal
    by_cases hk : k = s
    · simp [hk]
    · rcases h with rfl | h
      · exact absurd rfl hk
      · simpa [hk] using ih h

theorem lookupContinuation_isSome {cache : List (GameState × ℚ)} {s : GameState}
    (h : (findVal cache s).isSome ∨ (findVal cache s.opposite).isSome) :
    (lookupContinuation cache s).isSome := by
  rcases h with h | h
  · obtain ⟨v, hv⟩ := Option.isSome_iff_exists.mp h
    simp [lookupContinuation, hv]
  · obtain ⟨v, hv⟩ := Option.isSome_iff_exists.mp h
    unfold lookupContinuation
    cases hfv : findVal cache s
    · simp [hv]
    · simp

theorem afterRound_valid {t : GameState} {n m top pm om : ℕ}
    (hv : validState t (n + 1) m) (htop : top ∈ t.deck_cards)
    (hpm : pm ∈ t.player_cards) (hom : om ∈ t.opponent_cards) :
    validState (t.afterRound top pm om) n m := by
  obtain ⟨h1, h2, h3, h4, h5, h6⟩ := hv
  refine ⟨?_, ?_, ?_, ?_, ?_, ?_⟩
  · show (t.player_cards \ {pm}).card = n
    rw [Finset.sdiff_singleton_eq_erase, Finset.card_erase_of_mem hpm, h1]
    omega
  · show (t.opponent_cards \ {om}).card = n
    rw [Finset.sdiff_singleton_eq_erase, Finset.card_erase_of_mem hom, h2]
    omega
  · show (t.deck_cards \ {top}).card = n
    rw [Finset.sdiff_singleton_eq_erase, Finset.card_erase_of_mem htop, h3]
    omega
  · intro x hx
    exact h4 x (Finset.mem_sdiff.mp hx).1
  · intro x hx
    exact h5 x (Finset.mem_sdiff.mp hx).1
  · intro x hx
    exact h6 x (Finset.mem_sdiff.mp hx).1

end Gops

/-- C8 counterexample: the state with player hand `{2}`, opponent hand
`{1}` and deck `{1}` has exactly one card per collection drawn from
`[1, 2]`, yet the gops enumeration of size 1 over `[1, 2]` never yields
it (only its opposite is yielded): the enumeration does not produce
every such state. -/
theorem claim_C8_counterexample :
    Gops.validState (Gops.GameState.mk {2} {1} {1}) 1 2 ∧
    Gops.GameState.mk {2} {1} {1} ∉ Gops.GameState.ofSize 1 2 := by
  constructor
  · decide
  · decide

/-- C8 amended: the enumeration produces every such state up to the
player/opponent swap: for every GameState with exactly `size` cards in
each collection drawn from `[1, maxCard]`, the sequence contains the
state itself or its opposite. -/
theorem claim_C8_enumeration_complete_up_to_opposite (size maxCard : ℕ)
    (s : Gops.GameState) (hv : Gops.validState s size maxCard) :
    s ∈ Gops.GameState.ofSize size maxCard ∨
      s.opposite ∈ Gops.GameState.ofSize size maxCard :=
  Gops.ofSize_complete hv

/-- C8 witness: the counterexample state itself is reached through its
opposite. -/
theorem claim_C8_witness :
    Gops.validState (Gops.GameState.mk {2} {1} {1}) 1 2 ∧
    (Gops.GameState.mk {2} {1} {1} ∈ Gops.GameState.ofSize 1 2 ∨
      (Gops.GameState.mk {2} {1} {1}).opposite ∈ Gops.GameState.ofSize 1 2) :=
  ⟨by decide, claim_C8_enumeration_complete_up_to_opposite 1 2 _ (by decide)⟩

/-- C10: for every state with `n` cards per collection drawn from
`[1, maxCard]` the enumeration of size `n` yields exactly one of the
state and its opposite (once); and once a level cache is keyed exactly
by that enumeration, every continuation lookup at the next level finds
the continuation or its opposite, so the `KeyError` branch of the
negate-on-read lookup is unreachable. -/
theorem claim_C10_symmetry_reduction (n maxCard : ℕ) :
    (∀ s : Gops.GameState, Gops.validState s n maxCard →
        Gops.enumYieldsExactlyOne n maxCard s) ∧
    Gops.nextLevelLookupsSucceed n maxCard := by
  constructor
  · intro s hv
    refine ⟨Gops.ofSize_complete hv, ?_, ?_⟩
    · intro hne hboth
      exact Gops.ofSize_excl hne hboth.1 hboth.2
    · exact List.nodup_iff_count_le_one.mp (Gops.ofSize_nodup n maxCard) s
  · intro cache t top pm om hkeys hvt htop hpm hom
    have hvc := Gops.afterRound_valid hvt htop hpm hom
    rcases Gops.ofSize_complete hvc with h | h
    · exact Gops.lookupContinuation_isSome
        (Or.inl (Gops.findVal_isSome_of_mem (by rw [hkeys]; exact h)))
    · exact Gops.lookupContinuation_isSome
        (Or.inr (Gops.findVal_isSome_of_mem (by rw [hkeys]; exact h)))

/-- C10 witness: level 1 of the 2-card game, with its six-entry cache,
and one continuation lookup from the full 2-card state. -/
theorem claim_C10_witness :
    Gops.validState (Gops.GameState.mk {1} {2} {1}) 1 2 ∧
    Gops.enumYieldsExactlyOne 1 2 (Gops.GameState.mk {1} {2} {1}) ∧
    Gops.validState (Gops.GameState.mk {1, 2} {1, 2} {1, 2}) 2 2 ∧
    (Gops.lookupContinuation
        [(Gops.GameState.mk {1} {1} {1}, (0 : ℚ)), (Gops.GameState.mk {1} {1} {2}, 0),
         (Gops.GameState.mk {1} {2} {1}, 0), (Gops.GameState.mk {1} {2} {2}, 0),
         (Gops.GameState.mk {2} {2} {1}, 0), (Gops.GameState.mk {2} {2} {2}, 0)]
        ((Gops.GameState.mk {1, 2} {1, 2} {1, 2}).afterRound 1 1 2)).isSome :=
  ⟨by decide, (claim_C10_symmetry_reduction 1 2).1 _ (by decide), by decide,
   (claim_C10_symmetry_reduction 1 2).2
     [(Gops.GameState.mk {1} {1} {1}, (0 : ℚ)), (Gops.GameState.mk {1} {1} {2}, 0),
      (Gops.GameState.mk {1} {2} {1}, 0), (Gops.GameState.mk {1} {2} {2}, 0),
      (Gops.GameState.mk {2} {2} {1}, 0), (Gops.GameState.mk {2} {2} {2}, 0)]
     (Gops.GameState.mk {1, 2} {1, 2} {1, 2}) 1 1 2 (by decide) (by decide)
     (by decide) (by decide) (by decide)⟩

namespace Gops

/-! Orchestrator-level helpers: keys and totality of each level. -/

theorem finList_empty : finList (∅ : Finset ℕ) = [] := rfl

theorem finList_card_one {s : Finset ℕ} (h : s.card = 1) :
    finList s = [(finList s).headD 0] := by
  have hl : (finList s).length = 1 := by rw [finList_length, h]
  cases hfl : finList s with
  | nil =>
    rw [hfl] at hl
    simp at hl
  | cons a t =>
    rw [hfl] at hl
    simp only [List.length_cons] at hl
    have ht : t = [] := List.length_eq_zero.mp (by omega)
    subst ht
    rfl

theorem mem_of_findVal_isSome :
    ∀ {cache : List (GameState × ℚ)} {s : GameState},
      (findVal cache s).isSome → s ∈ cache.map Prod.fst := by
  intro cache
  induction cache with
  | nil =>
    intro s h
    simp [findVal] at h
  | cons p t ih =>
    intro s h
    obtain ⟨k, v⟩ := p
    unfold findVal at h
    by_cases hk : k = s
    · simp [hk]
    · rw [if_neg hk] at h
      simp only [List.map_cons, List.mem_cons]
      exact Or.inr (ih h)

theorem getStrategies_keys {solver : Solver} {s : GameState}
    {cache : List (GameState × ℚ)} {strats : List (ℕ × Strategy)}
    (h : getStrategiesForPossibleTopCards solver s cache = some strats) :
    strats.map Prod.fst = finList s.deck_cards := by
  unfold getStrategiesForPossibleTopCards at h
  by_cases h0 : s.deck_cards.card = 0
  · rw [if_pos h0] at h
    obtain rfl := Option.some_inj.mp h
    have hde : s.deck_cards = ∅ := Finset.card_eq_zero.mp h0
    simp [hde, finList_empty]
  · by_cases h1 : s.deck_cards.card = 1
    · rw [if_neg h0, if_pos h1] at h
      obtain rfl := Option.some_inj.mp h
      rw [finList_card_one h1]
      rfl
    · rw [if_neg h0, if_neg h1] at h
      refine mapOptionList_fst ?_ h
      intro a b hb
      simp only [Option.map_eq_some'] at hb
      obtain ⟨m', _, rfl⟩ := hb
      rfl

theorem getStrategies_isSome (solver : Solver) {s : GameState}
    {cache : List (GameState × ℚ)} {n m : ℕ}
    (hv : validState s (n + 1) m)
    (hkeys : cache.map Prod.fst = GameState.ofSize n m) :
    (getStrategiesForPossibleTopCards solver s cache).isSome := by
  have hcard : s.deck_cards.card = n + 1 := hv.2.2.1
  unfold getStrategiesForPossibleTopCards
  rw [if_neg (by omega)]
  by_cases h1 : s.deck_cards.card = 1
  · rw [if_pos h1]
    simp
  · rw [if_neg h1]
    apply mapOptionList_isSome
    intro top htopl
    have htop : top ∈ s.deck_cards := mem_finList.mp htopl
    have hbm : (buildPayoffMatrix cache s top).isSome := by
      unfold buildPayoffMatrix
      apply mapOptionList_isSome
      intro mo hmo
      obtain ⟨pm, om⟩ := mo
      obtain ⟨hpml, homl⟩ := mem_listProd.mp hmo
      have hpm := mem_finList.mp hpml
      have hom := mem_finList.mp homl
      have hvc := afterRound_valid hv htop hpm hom
      have hl : (lookupContinuation cache (s.afterRound top pm om)).isSome := by
        rcases ofSize_complete hvc with h | h
        · exact lookupContinuation_isSome
            (Or.inl (findVal_isSome_of_mem (by rw [hkeys]; exact h)))
        · exact lookupContinuation_isSome
            (Or.inr (findVal_isSome_of_mem (by rw [hkeys]; exact h)))
      obtain ⟨c, hc⟩ := Option.isSome_iff_exists.mp hl
      simp [hc]
    obtain ⟨M, hM⟩ := Option.isSome_iff_exists.mp hbm
    simp [hM]

theorem levelValues_spec (solver : Solver) {m n : ℕ} {cache : List (GameState × ℚ)}
    (hkeys : cache.map Prod.fst = GameState.ofSize n m) :
    ∃ out, levelValues solver cache (GameState.ofSize (n + 1) m) = some out ∧
      out.map Prod.fst = GameState.ofSize (n + 1) m := by
  have hsome : (levelValues solver cache (GameState.ofSize (n + 1) m)).isSome := by
    unfold levelValues
    apply mapOptionList_isSome
    intro s hs
    have hv := ofSize_valid hs
    have hvn : validState s (n + 1) m := by
      have : s.player_cards.card = n + 1 := hv.1
      exact hv
    have hg := getStrategies_isSome solver hvn hkeys
    obtain ⟨strats, hstr⟩ := Option.isSome_iff_exists.mp hg
    have hlen : strats.length = n + 1 := by
      have hk := getStrategies_keys hstr
      have hl2 : strats.length = (finList s.deck_cards).length := by
        rw [← hk]
        simp
      rw [hl2, finList_length, hvn.2.2.1]
    rw [hstr]
    simp only [Option.some_bind]
    rw [if_neg (by omega)]
    simp
  obtain ⟨out, hout⟩ := Option.isSome_iff_exists.mp hsome
  refine ⟨out, hout, ?_⟩
  unfold levelValues at hout
  refine mapOptionList_fst ?_ hout
  intro a b hb
  simp only [Option.bind_eq_some] at hb
  obtain ⟨strats, _, hif⟩ := hb
  by_cases hz : strats.length = 0
  · rw [if_pos hz] at hif
    exact absurd hif (by simp)
  · rw [if_neg hz] at hif
    obtain rfl := Option.some_inj.mp hif
    rfl

theorem runLevels_spec (solver : Solver) (m : ℕ) :
    ∀ k : ℕ, ∃ cache, runLevels solver m k = some cache ∧
      cache.map Prod.fst = GameState.ofSize k m := by
  intro k
  induction k with
  | zero =>
    refine ⟨[(GameState.empty, 0)], rfl, ?_⟩
    simp [GameState.ofSize, combos, cwr2, listProd, GameState.empty]
  | succ k ih =>
    obtain ⟨cache, hrun, hkeys⟩ := ih
    obtain ⟨out, hout, hkeys'⟩ := levelValues_spec solver hkeys
    refine ⟨out, ?_, hkeys'⟩
    simp only [runLevels]
    rw [hrun]
    simpa using hout

theorem full_state_mem (n : ℕ) :
    GameState.mk (cardRange n).toFinset (cardRange n).toFinset (cardRange n).toFinset ∈
      GameState.ofSize n n := by
  have hcr : cardRange n ∈ combos n (cardRange n) := by
    rw [mem_combos]
    refine ⟨List.Sublist.refl _, ?_⟩
    simp [cardRange]
  have hcwr : (cardRange n, cardRange n) ∈ cwr2 (combos n (cardRange n)) := by
    rcases cwr2_complete hcr hcr with h | h <;> exact h
  rw [mem_ofSize]
  exact ⟨_, _, _, hcwr, hcr, rfl⟩

theorem ofSize_full_ne_nil (n : ℕ) : GameState.ofSize n n ≠ [] :=
  List.ne_nil_of_mem (full_state_mem n)

theorem getOptimal_isSome (solver : Solver) {n : ℕ} (hn : 1 ≤ n) :
    (getOptimalGameStrategy solver n).isSome := by
  obtain ⟨n', rfl⟩ : ∃ n', n = n' + 1 := ⟨n - 1, by omega⟩
  obtain ⟨cache, hrun, hkeys⟩ := runLevels_spec solver (n' + 1) (n' + 1 - 1)
  unfold getOptimalGameStrategy
  rw [hrun]
  simp only [Option.some_bind]
  cases hofs : GameState.ofSize (n' + 1) (n' + 1) with
  | nil => exact absurd hofs (ofSize_full_ne_nil (n' + 1))
  | cons s rest =>
    have hs : s ∈ GameState.ofSize (n' + 1) (n' + 1) := by
      rw [hofs]
      exact List.mem_cons_self _ _
    have hv := ofSize_valid hs
    have hkeys' : cache.map Prod.fst = GameState.ofSize n' (n' + 1) := by
      simpa using hkeys
    exact getStrategies_isSome solver hv hkeys'

end Gops

/-- C4: every value the orchestrator stores at level `n` (for
`1 ≤ n ≤ N-1`) is the arithmetic mean of the per-top-card expected
values: the solved strategies are keyed by exactly the cards of the
state's deck, and the stored value is their expected values summed and
divided by their number. -/
theorem claim_C4_level_value_is_mean (solver : Gops.Solver) (N n : ℕ)
    (prev cache : List (Gops.GameState × ℚ)) (s : Gops.GameState) (v : ℚ)
    (h1 : 1 ≤ n) (h2 : n ≤ N - 1)
    (hprev : Gops.runLevels solver N (n - 1) = some prev)
    (hcur : Gops.runLevels solver N n = some cache)
    (hmem : (s, v) ∈ cache) :
    ∃ strats, Gops.getStrategiesForPossibleTopCards solver s prev = some strats ∧
      strats.map Prod.fst = Gops.finList s.deck_cards ∧
      strats.length = s.deck_cards.card ∧
      v = (strats.map (fun p => p.2.expected_value)).sum / (strats.length : ℚ) := by
  obtain ⟨n', rfl⟩ : ∃ n', n = n' + 1 := ⟨n - 1, by omega⟩
  simp only [Nat.add_sub_cancel] at hprev
  simp only [Gops.runLevels] at hcur
  rw [hprev] at hcur
  simp only [Option.some_bind] at hcur
  unfold Gops.levelValues at hcur
  obtain ⟨x, _, hfx⟩ := Gops.mapOptionList_mem_rev hcur hmem
  simp only [Option.bind_eq_some] at hfx
  obtain ⟨strats, hstr, hif⟩ := hfx
  by_cases hz : strats.length = 0
  · rw [if_pos hz] at hif
    exact absurd hif (by simp)
  · rw [if_neg hz] at hif
    have hpair := Option.some_inj.mp hif
    rw [Prod.mk.injEq] at hpair
    obtain ⟨rfl, hval⟩ := hpair
    have hk := Gops.getStrategies_keys hstr
    refine ⟨strats, hstr, hk, ?_, hval.symm⟩
    have hl : strats.length = (Gops.finList x.deck_cards).length := by
      rw [← hk]
      simp
    rw [hl, Gops.finList_length]

/-- C4 witness: level 1 of the 2-card game; the state with hands `{1}`,
`{2}` and deck `{1}` stores value `-1`, the mean over its single top
card. -/
theorem claim_C4_witness :
    Gops.runLevels Gops.solverZero 2 0 = some [(Gops.GameState.empty, 0)] ∧
    Gops.runLevels Gops.solverZero 2 1 = some
      [(Gops.GameState.mk {1} {1} {1}, 0), (Gops.GameState.mk {1} {1} {2}, 0),
       (Gops.GameState.mk {1} {2} {1}, -1), (Gops.GameState.mk {1} {2} {2}, -2),
       (Gops.GameState.mk {2} {2} {1}, 0), (Gops.GameState.mk {2} {2} {2}, 0)] ∧
    (∃ strats, Gops.getStrategiesForPossibleTopCards Gops.solverZero
        (Gops.GameState.mk {1} {2} {1}) [(Gops.GameState.empty, 0)] = some strats ∧
      strats.map Prod.fst = Gops.finList (Gops.GameState.mk {1} {2} {1}).deck_cards ∧
      strats.length = (Gops.GameState.mk {1} {2} {1}).deck_cards.card ∧
      (-1 : ℚ) = (strats.map (fun p => p.2.expected_value)).sum / (strats.length : ℚ)) :=
  ⟨by with_unfolding_all decide, by with_unfolding_all decide,
   claim_C4_level_value_is_mean Gops.solverZero 2 1 [(Gops.GameState.empty, 0)]
     [(Gops.GameState.mk {1} {1} {1}, 0), (Gops.GameState.mk {1} {1} {2}, 0),
      (Gops.GameState.mk {1} {2} {1}, -1), (Gops.GameState.mk {1} {2} {2}, -2),
      (Gops.GameState.mk {2} {2} {1}, 0), (Gops.GameState.mk {2} {2} {2}, 0)]
     (Gops.GameState.mk {1} {2} {1}) (-1) (by decide) (by decide)
     (by with_unfolding_all decide) (by with_unfolding_all decide)
     (by with_unfolding_all decide)⟩

/-- C5: in every level cache the orchestrator completes, the value
obtainable for a state and the value obtainable for its distinct
opposite through the negate-on-read lookup are negations of each other. -/
theorem claim_C5_value_negation_symmetry (solver : Gops.Solver) (N n : ℕ)
    (cache : List (Gops.GameState × ℚ)) (s : Gops.GameState) (v : ℚ)
    (h1 : 1 ≤ n) (h2 : n ≤ N - 1)
    (hrun : Gops.runLevels solver N n = some cache)
    (hv : Gops.lookupContinuation cache s = some v)
    (hne : s.opposite ≠ s) :
    Gops.lookupContinuation cache s.opposite = some (-v) := by
  obtain ⟨cache', hrun', hkeys⟩ := Gops.runLevels_spec solver N n
  rw [hrun] at hrun'
  obtain rfl := Option.some_inj.mp hrun'
  cases hfv : Gops.findVal cache s with
  | some w =>
    have hwv : w = v := by
      unfold Gops.lookupContinuation at hv
      rw [hfv] at hv
      exact Option.some_inj.mp hv
    subst hwv
    have hsk : s ∈ cache.map Prod.fst :=
      Gops.mem_of_findVal_isSome (by simp [hfv])
    rw [hkeys] at hsk
    have hnok : s.opposite ∉ cache.map Prod.fst := by
      intro hmem
      rw [hkeys] at hmem
      exact Gops.ofSize_excl hne hsk hmem
    have hfvo : Gops.findVal cache s.opposite = none := by
      cases hfo : Gops.findVal cache s.opposite with
      | none => rfl
      | some u =>
        exact absurd (Gops.mem_of_findVal_isSome (by simp [hfo])) hnok
    have hoo : s.opposite.opposite = s := rfl
    simp only [Gops.lookupContinuation, hfvo, hoo, hfv, Option.map_some']
  | none =>
    have hv' : ∃ u, Gops.findVal cache s.opposite = some u ∧ -u = v := by
      unfold Gops.lookupContinuation at hv
      rw [hfv] at hv
      simpa [Option.map_eq_some'] using hv
    obtain ⟨u, hu, huv⟩ := hv'
    simp only [Gops.lookupContinuation, hu]
    rw [← huv, neg_neg]

/-- C5 witness: in the level-1 cache of the 2-card game, the state with
hands `{2}`, `{1}` and deck `{1}` reads value `1` and its opposite reads
`-1`. -/
theorem claim_C5_witness :
    Gops.runLevels Gops.solverZero 2 1 = some
      [(Gops.GameState.mk {1} {1} {1}, 0), (Gops.GameState.mk {1} {1} {2}, 0),
       (Gops.GameState.mk {1} {2} {1}, -1), (Gops.GameState.mk {1} {2} {2}, -2),
       (Gops.GameState.mk {2} {2} {1}, 0), (Gops.GameState.mk {2} {2} {2}, 0)] ∧
    Gops.lookupContinuation
      [(Gops.GameState.mk {1} {1} {1}, 0), (Gops.GameState.mk {1} {1} {2}, 0),
       (Gops.GameState.mk {1} {2} {1}, -1), (Gops.GameState.mk {1} {2} {2}, -2),
       (Gops.GameState.mk {2} {2} {1}, 0), (Gops.GameState.mk {2} {2} {2}, 0)]
      (Gops.GameState.mk {2} {1} {1}) = some 1 ∧
    Gops.lookupContinuation
      [(Gops.GameState.mk {1} {1} {1}, 0), (Gops.GameState.mk {1} {1} {2}, 0),
       (Gops.GameState.mk {1} {2} {1}, -1), (Gops.GameState.mk {1} {2} {2}, -2),
       (Gops.GameState.mk {2} {2} {1}, 0), (Gops.GameState.mk {2} {2} {2}, 0)]
      (Gops.GameState.mk {2} {1} {1}).opposite = some (-1) :=
  ⟨by with_unfolding_all decide, by with_unfolding_all decide,
   claim_C5_value_negation_symmetry Gops.solverZero 2 1
     [(Gops.GameState.mk {1} {1} {1}, 0), (Gops.GameState.mk {1} {1} {2}, 0),
      (Gops.GameState.mk {1} {2} {1}, -1), (Gops.GameState.mk {1} {2} {2}, -2),
      (Gops.GameState.mk {2} {2} {1}, 0), (Gops.GameState.mk {2} {2} {2}, 0)]
     (Gops.GameState.mk {2} {1} {1}) 1 (by decide) (by decide)
     (by with_unfolding_all decide) (by with_unfolding_all decide) (by decide)⟩

/-- C9 counterexample: a requested deck size of `0` (strictly less than
1) is not rejected before computation: the whole run completes normally
and returns the empty strategy map. -/
theorem claim_C9_counterexample :
    Gops.getOptimalGameStrategy Gops.solverZero 0 = some [] := by
  decide

/-- C9 amended: the program performs no deck-size validation: size `0`
runs to completion with an empty strategy map, and for every size at
least `1` no configuration error exists and the solve runs to
completion (with the LP solver abstracted as total). -/
theorem claim_C9_no_size_validation (solver : Gops.Solver) (n : ℕ) :
    Gops.getOptimalGameStrategy solver 0 = some [] ∧
    (1 ≤ n → (Gops.getOptimalGameStrategy solver n).isSome) := by
  constructor
  · rfl
  · intro h
    exact Gops.getOptimal_isSome solver h

/-- C9 witness: the full run at sizes 0 and 2 with a concrete solver. -/
theorem claim_C9_witness :
    Gops.getOptimalGameStrategy Gops.solverZero 0 = some [] ∧
    (1 : ℕ) ≤ 2 ∧
    (Gops.getOptimalGameStrategy Gops.solverZero 2).isSome :=
  ⟨(claim_C9_no_size_validation Gops.solverZero 2).1, by decide,
   (claim_C9_no_size_validation Gops.solverZero 2).2 (by decide)⟩
